import Mathlib

/-!
Verification of the pronunciation-scoring core of the Learn-Cantonese backend.

The embedded code is `calculatePronunciationScore` (src/unnamed/part_002,
lines 1240–1301) together with its local text normalizer and the Levenshtein
edit-distance primitive it calls.  JavaScript numbers are modelled by exact
rationals (ℚ); `Math.round` is JavaScript rounding (round half toward +∞),
modelled as `⌊q + 1/2⌋`.
-/

namespace LearnCantonese

/-- A character survives the normalizer's filter
`replace(/[^一-龥a-z0-9]/g, '')` iff it is a CJK ideograph in
U+4E00–U+9FA5, a lowercase ASCII letter, or an ASCII digit. -/
def isKept (c : Char) : Bool :=
  (0x4e00 ≤ c.toNat && c.toNat ≤ 0x9fa5) ||
    (0x61 ≤ c.toNat && c.toNat ≤ 0x7a) ||
    (0x30 ≤ c.toNat && c.toNat ≤ 0x39)

/-- Modelled from the spec: JavaScript `String.prototype.toLowerCase()` is an
external builtin (not in the repository).  We model its action on the ASCII
uppercase range, which is exact on every character class the comparison can
see afterwards: CJK ideographs, lowercase ASCII letters and digits are fixed
points of Unicode lowercasing, exactly as they are fixed points here. -/
def jsToLower (c : Char) : Char :=
  if c.toNat ≥ 0x41 ∧ c.toNat ≤ 0x5a then Char.ofNat (c.toNat + 0x20) else c

/-- The scorer's local normalizer (part_002 line 1242):
`text.toLowerCase().replace(/[^一-龥a-z0-9]/g, '')`. -/
def normalize (text : String) : String :=
  ⟨(text.data.map jsToLower).filter isKept⟩

/-- Helper for `lev`: given `alen = a.length` and `levA = lev a`,
`levGo x alen levA b` computes the Levenshtein distance of `x :: a` and `b`.
Split out so that the recursion is structural (hence kernel-evaluable). -/
def levGo (x : Char) (alen : Nat) (levA : List Char → Nat) : List Char → Nat
  | [] => alen + 1
  | y :: b =>
    if x = y then levA b
    else 1 + min (levA b) (min (levGo x alen levA b) (levA (y :: b)))

/-- Modelled from the spec: the `levenshtein` npm package used at part_002
line 1248 is an external dependency (not in the repository).  Per spec §4.2
it computes the Levenshtein (single-character insert/delete/substitute) edit
distance; this is the standard recursive definition of that distance. -/
def lev : List Char → List Char → Nat
  | [], b => b.length
  | x :: a, b => levGo x a.length (lev a) b

/-- JavaScript `Math.max(_, _) || 1` for natural numbers: `0` is falsy. -/
def jsOrOne (n : Nat) : Nat := if n = 0 then 1 else n

/-- JavaScript `Math.round`: round half toward positive infinity. -/
def jsRound (q : ℚ) : ℤ := ⌊q + 1/2⌋

/-- The encouragement pair returned inside the score report. -/
structure Encouragement where
  title : String
  message : String
deriving DecidableEq

/-- The object literal returned by `calculatePronunciationScore`
(part_002 lines 1289–1300).  All numeric fields are `Math.round` results,
hence integers. -/
structure ScoreReport where
  score : ℤ
  accuracy : String
  fluency : ℤ
  toneAccuracy : ℤ
  similarity : ℤ
  confidence : ℤ
  encouragement : Encouragement
deriving DecidableEq

/-- `calculatePronunciationScore` (part_002 lines 1240–1301), embedded with
exact rational arithmetic.  Decimal literals of the source appear as the
corresponding rationals. -/
def calculatePronunciationScore (originalText userText : String) (confidence : ℚ) :
    ScoreReport :=
  let normalizedOriginal := normalize originalText
  let normalizedUser := normalize userText
  let distance : ℕ := lev normalizedOriginal.data normalizedUser.data
  let maxLen : ℕ := jsOrOne (max normalizedOriginal.length normalizedUser.length)
  let similarity : ℚ := 1 - (distance : ℚ) / (maxLen : ℚ)
  let similarityScore : ℚ := similarity * 100
  let confidenceScore : ℚ := confidence * 100
  let toneAccuracy : ℚ :=
    min 100 (max 60 (similarityScore * (9/10) + confidenceScore * (1/10)))
  let score : ℤ :=
    jsRound (similarityScore * (6/10) + confidenceScore * (25/100) +
      toneAccuracy * (15/100))
  let accuracy : String :=
    if score ≥ 90 then "Excellent"
    else if score ≥ 75 then "Good"
    else if score ≥ 60 then "Fair"
    else "Poor"
  let fluency : ℤ :=
    min 100 (jsRound (((score : ℚ) * (7/10) + confidenceScore * (3/10)) * (95/100) + 5))
  let encouragement : Encouragement :=
    if score ≥ 90 then ⟨"好犀利！(太棒了)", "发音非常自然，继续保持。"⟩
    else if score ≥ 80 then ⟨"唔错喔！(很好)", "发音很标准，再接再厉！"⟩
    else if score ≥ 70 then ⟨"过得去！(还可以)", "有些地方需要练习，加油！"⟩
    else if score ≥ 60 then ⟨"继续努力！(再努力)", "多听多说，一定会有进步！"⟩
    else ⟨"重新嚟过！(再试试)", "不要气馁，多练习几次！"⟩
  { score := max 0 (min 100 score)
    accuracy := accuracy
    fluency := fluency
    toneAccuracy := jsRound toneAccuracy
    similarity := jsRound (similarity * 100)
    confidence := jsRound (confidence * 100)
    encouragement := encouragement }

/-- The similarity fraction `1 - distance / maxLen` computed inside
`calculatePronunciationScore` (part_002 lines 1248–1250). -/
def simQ (o u : String) : ℚ :=
  1 - (lev (normalize o).data (normalize u).data : ℚ) /
      (jsOrOne (max (normalize o).length (normalize u).length) : ℚ)

/-- The `toneAccuracy` rational computed inside the scorer (line 1257). -/
def toneQ (o u : String) (c : ℚ) : ℚ :=
  min 100 (max 60 (simQ o u * 100 * (9/10) + c * 100 * (1/10)))

/-- The rounded (but not yet clamped) `score` variable (line 1259). -/
def scoreZ (o u : String) (c : ℚ) : ℤ :=
  jsRound (simQ o u * 100 * (6/10) + c * 100 * (25/100) + toneQ o u c * (15/100))

/-- The `fluency` variable (line 1268). -/
def fluencyZ (o u : String) (c : ℚ) : ℤ :=
  min 100 (jsRound (((scoreZ o u c : ℚ) * (7/10) + c * 100 * (3/10)) * (95/100) + 5))

/-- Unfolding of the scorer: every field of the returned report, written in
terms of the named intermediate quantities.  Holds by definitional unfolding
of the `let` bindings. -/
theorem calculatePronunciationScore_eq (o u : String) (c : ℚ) :
    calculatePronunciationScore o u c =
      { score := max 0 (min 100 (scoreZ o u c))
        accuracy :=
          if scoreZ o u c ≥ 90 then "Excellent"
          else if scoreZ o u c ≥ 75 then "Good"
          else if scoreZ o u c ≥ 60 then "Fair"
          else "Poor"
        fluency := fluencyZ o u c
        toneAccuracy := jsRound (toneQ o u c)
        similarity := jsRound (simQ o u * 100)
        confidence := jsRound (c * 100)
        encouragement :=
          if scoreZ o u c ≥ 90 then ⟨"好犀利！(太棒了)", "发音非常自然，继续保持。"⟩
          else if scoreZ o u c ≥ 80 then ⟨"唔错喔！(很好)", "发音很标准，再接再厉！"⟩
          else if scoreZ o u c ≥ 70 then ⟨"过得去！(还可以)", "有些地方需要练习，加油！"⟩
          else if scoreZ o u c ≥ 60 then ⟨"继续努力！(再努力)", "多听多说，一定会有进步！"⟩
          else ⟨"重新嚟过！(再试试)", "不要气馁，多练习几次！"⟩ } := rfl

theorem lev_nil_left (b : List Char) : lev [] b = b.length := rfl

theorem lev_nil_right (a : List Char) : lev a [] = a.length := by
  cases a <;> rfl

theorem lev_cons_cons (x y : Char) (a b : List Char) :
    lev (x :: a) (y :: b) =
      if x = y then lev a b
      else 1 + min (lev a b) (min (lev (x :: a) b) (lev a (y :: b))) := rfl

theorem lev_self (a : List Char) : lev a a = 0 := by
  induction a with
  | nil => rfl
  | cons x a ih => rw [lev_cons_cons, if_pos rfl, ih]

theorem lev_le_max (a b : List Char) : lev a b ≤ max a.length b.length := by
  induction a generalizing b with
  | nil => simp [lev_nil_left]
  | cons x a iha =>
    induction b with
    | nil => simp [lev_nil_right]
    | cons y b ihb =>
      rw [lev_cons_cons]
      by_cases h : x = y
      · rw [if_pos h]
        have := iha b
        simp only [List.length_cons]
        omega
      · rw [if_neg h]
        have h1 : min (lev a b) (min (lev (x :: a) b) (lev a (y :: b))) ≤ lev a b :=
          Nat.min_le_left _ _
        have := iha b
        simp only [List.length_cons]
        omega

theorem le_jsRound {n : ℤ} {q : ℚ} (h : (n : ℚ) ≤ q) : n ≤ jsRound q := by
  rw [jsRound, Int.le_floor]
  linarith

theorem jsRound_le {n : ℤ} {q : ℚ} (h : q ≤ (n : ℚ)) : jsRound q ≤ n := by
  rw [jsRound, ← Int.lt_add_one_iff, Int.floor_lt]
  push_cast
  linarith

theorem simQ_mem (o u : String) : 0 ≤ simQ o u ∧ simQ o u ≤ 1 := by
  have hlen : ∀ s : String, s.length = s.data.length := fun _ => rfl
  rw [simQ]
  set d : ℕ := lev (normalize o).data (normalize u).data with hd
  set m : ℕ := jsOrOne (max (normalize o).length (normalize u).length) with hm
  have hdm : d ≤ m := by
    rw [hm, jsOrOne]
    split
    · have h0 : max (normalize o).length (normalize u).length = 0 := by assumption
      have ho : (normalize o).data.length = 0 := by rw [← hlen]; omega
      have hu : (normalize u).data.length = 0 := by rw [← hlen]; omega
      have := lev_le_max (normalize o).data (normalize u).data
      omega
    · have := lev_le_max (normalize o).data (normalize u).data
      rw [hlen, hlen]
      omega
  have hmpos : 0 < m := by
    rw [hm, jsOrOne]; split
    · exact Nat.one_pos
    · omega
  have hmq : (0 : ℚ) < (m : ℚ) := by exact_mod_cast hmpos
  have h1 : (d : ℚ) / (m : ℚ) ≤ 1 := by
    rw [div_le_one hmq]
    exact_mod_cast hdm
  have h0 : (0 : ℚ) ≤ (d : ℚ) / (m : ℚ) := by positivity
  constructor <;> linarith

theorem toneQ_mem (o u : String) (c : ℚ) : 60 ≤ toneQ o u c ∧ toneQ o u c ≤ 100 := by
  refine ⟨le_min (by norm_num) (le_max_left _ _), min_le_left _ _⟩

theorem scoreZ_mem (o u : String) (c : ℚ) (hc0 : 0 ≤ c) (hc1 : c ≤ 1) :
    9 ≤ scoreZ o u c ∧ scoreZ o u c ≤ 100 := by
  obtain ⟨hs0, hs1⟩ := simQ_mem o u
  obtain ⟨ht0, ht1⟩ := toneQ_mem o u c
  have e1 : (0 : ℚ) ≤ simQ o u * 100 * (6/10) := by positivity
  have e2 : (0 : ℚ) ≤ c * 100 * (25/100) := by positivity
  constructor
  · exact le_jsRound (by push_cast; linarith)
  · exact jsRound_le (by push_cast; linarith)

theorem lev_symm_aux : ∀ (n : ℕ) (a b : List Char), a.length + b.length = n →
    lev a b = lev b a := by
  intro n
  induction n using Nat.strong_induction_on with
  | _ n ih =>
    intro a b hab
    match a, b with
    | [], b => rw [lev_nil_left, lev_nil_right]
    | a, [] => rw [lev_nil_left, lev_nil_right]
    | x :: a, y :: b =>
      rw [lev_cons_cons, lev_cons_cons]
      have h1 : lev a b = lev b a := by
        apply ih (a.length + b.length) _ a b rfl
        simp at hab; omega
      have h2 : lev (x :: a) b = lev b (x :: a) := by
        apply ih ((x :: a).length + b.length) _ (x :: a) b rfl
        simp at hab ⊢; omega
      have h3 : lev a (y :: b) = lev (y :: b) a := by
        apply ih (a.length + (y :: b).length) _ a (y :: b) rfl
        simp at hab ⊢; omega
      by_cases hxy : x = y
      · rw [if_pos hxy, if_pos hxy.symm, h1]
      · rw [if_neg hxy, if_neg (fun h => hxy h.symm), h1, h2, h3]
        rw [min_comm (lev b (x :: a)) (lev (y :: b) a)]

theorem lev_symm (a b : List Char) : lev a b = lev b a :=
  lev_symm_aux (a.length + b.length) a b rfl

theorem lev_step_aux : ∀ (n : ℕ),
    (∀ (a b : List Char) (y : Char), a.length + b.length = n →
      lev a (y :: b) ≤ 1 + lev a b) ∧
    (∀ (a b : List Char) (x : Char), a.length + b.length = n →
      lev a b ≤ 1 + lev (x :: a) b) := by
  intro n
  induction n using Nat.strong_induction_on with
  | _ n ih =>
    constructor
    · intro a b y hab
      match a with
      | [] =>
        rw [lev_nil_left, lev_nil_left]
        simp only [List.length_cons]
        omega
      | x :: as =>
        rw [lev_cons_cons]
        by_cases hxy : x = y
        · rw [if_pos hxy]
          have h3 := (ih (as.length + b.length) (by simp at hab; omega)).2 as b x rfl
          omega
        · rw [if_neg hxy]
          have hm : min (lev as b) (min (lev (x :: as) b) (lev as (y :: b))) ≤
              lev (x :: as) b :=
            le_trans (Nat.min_le_right _ _) (Nat.min_le_left _ _)
          omega
    · intro a b x hab
      match b with
      | [] =>
        rw [lev_nil_right, lev_nil_right]
        simp only [List.length_cons]
        omega
      | y :: bs =>
        rw [lev_cons_cons]
        by_cases hxy : x = y
        · rw [if_pos hxy]
          subst hxy
          have h1 := (ih (a.length + bs.length) (by simp at hab; omega)).1 a bs x rfl
          omega
        · rw [if_neg hxy]
          have h1 := (ih (a.length + bs.length) (by simp at hab; omega)).1 a bs y rfl
          have h3 := (ih (a.length + bs.length) (by simp at hab; omega)).2 a bs x rfl
          omega

/-- Inserting a character in front of the second argument changes the
distance by at most one. -/
theorem lev_ins_right (a b : List Char) (y : Char) : lev a (y :: b) ≤ 1 + lev a b :=
  (lev_step_aux (a.length + b.length)).1 a b y rfl

/-- Inserting a character in front of the first argument changes the
distance by at most one. -/
theorem lev_ins_left (a b : List Char) (x : Char) : lev (x :: a) b ≤ 1 + lev a b := by
  rw [lev_symm (x :: a) b, lev_symm a b]
  exact lev_ins_right b a x

/-- `Edits a b n` holds when `a` can be turned into `b` by a sequential edit
script of cost exactly `n`: copy a head character for free, or substitute,
insert, or delete one character for cost one. -/
inductive Edits : List Char → List Char → ℕ → Prop
  | nil : Edits [] [] 0
  | copy : ∀ (x : Char) (a b : List Char) (n : ℕ), Edits a b n → Edits (x :: a) (x :: b) n
  | subst : ∀ (x y : Char) (a b : List Char) (n : ℕ), Edits a b n →
      Edits (x :: a) (y :: b) (n + 1)
  | insert : ∀ (y : Char) (a b : List Char) (n : ℕ), Edits a b n →
      Edits a (y :: b) (n + 1)
  | delete : ∀ (x : Char) (a b : List Char) (n : ℕ), Edits a b n →
      Edits (x :: a) b (n + 1)

/-- The Levenshtein distance is realized by some edit script. -/
theorem edits_lev_aux : ∀ (n : ℕ) (a b : List Char), a.length + b.length = n →
    Edits a b (lev a b) := by
  intro n
  induction n using Nat.strong_induction_on with
  | _ n ih =>
    intro a b hab
    match a, b with
    | [], [] => exact Edits.nil
    | [], y :: b =>
      exact Edits.insert y [] b (lev [] b)
        (ih (0 + b.length) (by simp at hab ⊢; omega) [] b rfl)
    | x :: a, [] =>
      have hsub := ih (a.length + 0) (by simp at hab ⊢; omega) a [] rfl
      rw [lev_nil_right] at hsub
      exact Edits.delete x a [] a.length hsub
    | x :: a, y :: b =>
      rw [lev_cons_cons]
      by_cases hxy : x = y
      · rw [if_pos hxy]
        subst hxy
        exact Edits.copy x a b (lev a b)
          (ih (a.length + b.length) (by simp at hab; omega) a b rfl)
      · rw [if_neg hxy]
        have hp := ih (a.length + b.length) (by simp at hab; omega) a b rfl
        have hq := ih ((x :: a).length + b.length) (by simp at hab ⊢; omega) (x :: a) b rfl
        have hr := ih (a.length + (y :: b).length) (by simp at hab ⊢; omega) a (y :: b) rfl
        rcases min_cases (lev a b) (min (lev (x :: a) b) (lev a (y :: b))) with
          ⟨he, _⟩ | ⟨he, _⟩
        · rw [he, Nat.add_comm]
          exact Edits.subst x y a b (lev a b) hp
        · rcases min_cases (lev (x :: a) b) (lev a (y :: b)) with ⟨he2, _⟩ | ⟨he2, _⟩
          · rw [he, he2, Nat.add_comm]
            exact Edits.insert y (x :: a) b (lev (x :: a) b) hq
          · rw [he, he2, Nat.add_comm]
            exact Edits.delete x a (y :: b) (lev a (y :: b)) hr

theorem edits_lev (a b : List Char) : Edits a b (lev a b) :=
  edits_lev_aux (a.length + b.length) a b rfl

/-- The Levenshtein distance is a lower bound on the cost of any edit
script. -/
theorem lev_le_of_edits {a b : List Char} {n : ℕ} (h : Edits a b n) : lev a b ≤ n := by
  induction h with
  | nil => exact Nat.le_refl _
  | copy x a b n _ ih => rw [lev_cons_cons, if_pos rfl]; exact ih
  | subst x y a b n _ ih =>
    rw [lev_cons_cons]
    by_cases hxy : x = y
    · rw [if_pos hxy]; omega
    · rw [if_neg hxy]
      have hm : min (lev a b) (min (lev (x :: a) b) (lev a (y :: b))) ≤ lev a b :=
        Nat.min_le_left _ _
      omega
  | insert y a b n _ ih =>
    have := lev_ins_right a b y
    omega
  | delete x a b n _ ih =>
    have := lev_ins_left a b x
    omega

/-- Edit scripts compose: a script from `a` to `b` followed by a script from
`b` to `c` yields a script from `a` to `c` of at most the summed cost. -/
theorem edits_trans_aux : ∀ (n : ℕ) (a b c : List Char) (m k : ℕ),
    a.length + b.length + c.length = n → Edits a b m → Edits b c k →
    ∃ j, j ≤ m + k ∧ Edits a c j := by
  intro n
  induction n using Nat.strong_induction_on with
  | _ n ih =>
    intro a b c m k hn h1 h2
    cases h2 with
    | nil => exact ⟨m, by omega, h1⟩
    | insert y b1 c' k' h2' =>
      obtain ⟨j, hj, he⟩ := ih (a.length + b.length + c'.length)
        (by simp only [List.length_cons] at hn ⊢; omega) a b c' m k' rfl h1 h2'
      exact ⟨j + 1, by omega, Edits.insert y a c' j he⟩
    | copy x b' c' k1 h2' =>
      cases h1 with
      | copy x1 a' b1 m1 h1' =>
        obtain ⟨j, hj, he⟩ := ih (a'.length + b'.length + c'.length)
          (by simp only [List.length_cons] at hn ⊢; omega) a' b' c' m k rfl h1' h2'
        exact ⟨j, by omega, Edits.copy x a' c' j he⟩
      | subst x' y1 a' b1 m' h1' =>
        obtain ⟨j, hj, he⟩ := ih (a'.length + b'.length + c'.length)
          (by simp only [List.length_cons] at hn ⊢; omega) a' b' c' m' k rfl h1' h2'
        exact ⟨j + 1, by omega, Edits.subst x' x a' c' j he⟩
      | insert y1 a1 b1 m' h1' =>
        obtain ⟨j, hj, he⟩ := ih (a.length + b'.length + c'.length)
          (by simp only [List.length_cons] at hn ⊢; omega) a b' c' m' k rfl h1' h2'
        exact ⟨j + 1, by omega, Edits.insert x a c' j he⟩
      | delete x' a' b1 m' h1' =>
        obtain ⟨j, hj, he⟩ := ih (a'.length + (x :: b').length + (x :: c').length)
          (by simp only [List.length_cons] at hn ⊢; omega) a' (x :: b') (x :: c') m' k rfl
          h1' (Edits.copy x b' c' k h2')
        exact ⟨j + 1, by omega, Edits.delete x' a' (x :: c') j he⟩
    | subst x y b' c' k' h2' =>
      cases h1 with
      | copy x1 a' b1 m1 h1' =>
        obtain ⟨j, hj, he⟩ := ih (a'.length + b'.length + c'.length)
          (by simp only [List.length_cons] at hn ⊢; omega) a' b' c' m k' rfl h1' h2'
        exact ⟨j + 1, by omega, Edits.subst x y a' c' j he⟩
      | subst x' y1 a' b1 m' h1' =>
        obtain ⟨j, hj, he⟩ := ih (a'.length + b'.length + c'.length)
          (by simp only [List.length_cons] at hn ⊢; omega) a' b' c' m' k' rfl h1' h2'
        exact ⟨j + 1, by omega, Edits.subst x' y a' c' j he⟩
      | insert y1 a1 b1 m' h1' =>
        obtain ⟨j, hj, he⟩ := ih (a.length + b'.length + c'.length)
          (by simp only [List.length_cons] at hn ⊢; omega) a b' c' m' k' rfl h1' h2'
        exact ⟨j + 1, by omega, Edits.insert y a c' j he⟩
      | delete x' a' b1 m' h1' =>
        obtain ⟨j, hj, he⟩ := ih (a'.length + (x :: b').length + (y :: c').length)
          (by simp only [List.length_cons] at hn ⊢; omega) a' (x :: b') (y :: c') m'
          (k' + 1) rfl h1' (Edits.subst x y b' c' k' h2')
        exact ⟨j + 1, by omega, Edits.delete x' a' (y :: c') j he⟩
    | delete x b' c1 k' h2' =>
      cases h1 with
      | copy x1 a' b1 m1 h1' =>
        obtain ⟨j, hj, he⟩ := ih (a'.length + b'.length + c.length)
          (by simp only [List.length_cons] at hn ⊢; omega) a' b' c m k' rfl h1' h2'
        exact ⟨j + 1, by omega, Edits.delete x a' c j he⟩
      | subst x' y1 a' b1 m' h1' =>
        obtain ⟨j, hj, he⟩ := ih (a'.length + b'.length + c.length)
          (by simp only [List.length_cons] at hn ⊢; omega) a' b' c m' k' rfl h1' h2'
        exact ⟨j + 1, by omega, Edits.delete x' a' c j he⟩
      | insert y1 a1 b1 m' h1' =>
        obtain ⟨j, hj, he⟩ := ih (a.length + b'.length + c.length)
          (by simp only [List.length_cons] at hn ⊢; omega) a b' c m' k' rfl h1' h2'
        exact ⟨j, by omega, he⟩
      | delete x' a' b1 m' h1' =>
        obtain ⟨j, hj, he⟩ := ih (a'.length + (x :: b').length + c.length)
          (by simp only [List.length_cons] at hn ⊢; omega) a' (x :: b') c m' (k' + 1) rfl
          h1' (Edits.delete x b' c k' h2')
        exact ⟨j + 1, by omega, Edits.delete x' a' c j he⟩

/-- Triangle inequality for the Levenshtein distance. -/
theorem lev_triangle (a b c : List Char) : lev a c ≤ lev a b + lev b c := by
  obtain ⟨j, hj, he⟩ := edits_trans_aux (a.length + b.length + c.length) a b c
    (lev a b) (lev b c) rfl (edits_lev a b) (edits_lev b c)
  exact le_trans (lev_le_of_edits he) hj

theorem normalize_data (s : String) :
    (normalize s).data = (s.data.map jsToLower).filter isKept := rfl

/-- Every character the filter keeps is a fixed point of the (modelled)
lowercasing map: the kept ranges are disjoint from ASCII uppercase. -/
theorem jsToLower_of_isKept (c : Char) (h : isKept c = true) : jsToLower c = c := by
  simp only [isKept, Bool.or_eq_true, Bool.and_eq_true, decide_eq_true_eq] at h
  rw [jsToLower, if_neg]
  rintro ⟨h1, h2⟩
  rcases h with (⟨a1, a2⟩ | ⟨a1, a2⟩) | ⟨a1, a2⟩
  · exact absurd (a1.trans h2) (by norm_num)
  · exact absurd (a1.trans h2) (by norm_num)
  · exact absurd (h1.trans a2) (by norm_num)

theorem filter_map_fix (l : List Char) (h : ∀ c ∈ l, isKept c = true) :
    (l.map jsToLower).filter isKept = l := by
  induction l with
  | nil => rfl
  | cons c l ih =>
    have hc : isKept c = true := h c (List.mem_cons_self c l)
    rw [List.map_cons, jsToLower_of_isKept c hc, List.filter_cons_of_pos hc,
      ih (fun d hd => h d (List.mem_cons_of_mem c hd))]

theorem mem_normalize_isKept (s : String) (c : Char) (hc : c ∈ (normalize s).data) :
    isKept c = true := by
  rw [normalize_data] at hc
  exact List.of_mem_filter hc

theorem normalize_idem (s : String) : normalize (normalize s) = normalize s := by
  show (⟨((normalize s).data.map jsToLower).filter isKept⟩ : String) = normalize s
  rw [filter_map_fix _ (mem_normalize_isKept s)]

theorem fluencyZ_mem (o u : String) (c : ℚ) (hc0 : 0 ≤ c) (hc1 : c ≤ 1) :
    0 ≤ fluencyZ o u c ∧ fluencyZ o u c ≤ 100 := by
  obtain ⟨h9, _⟩ := scoreZ_mem o u c hc0 hc1
  constructor
  · refine le_min (by norm_num) (le_jsRound ?_)
    have hz : (9 : ℚ) ≤ (scoreZ o u c : ℚ) := by exact_mod_cast h9
    have ha : (0 : ℚ) ≤ c * 100 * (3/10) := by positivity
    push_cast
    linarith
  · exact min_le_left _ _

theorem clamp_mem (n : ℤ) : 0 ≤ max 0 (min 100 n) ∧ max 0 (min 100 n) ≤ 100 :=
  ⟨le_max_left _ _, max_le (by norm_num) (min_le_left _ _)⟩

theorem simQ_self (s : String) : simQ s s = 1 := by
  rw [simQ, lev_self]
  norm_num

/-- When both inputs normalize to the empty string, `maxLen` falls back to 1
and the distance is 0, so the similarity fraction is 1. -/
theorem simQ_empty (a b : String) (ha : normalize a = "") (hb : normalize b = "") :
    simQ a b = 1 := by
  rw [simQ, ha, hb]
  norm_num [lev_self]

/-- C1: For every pair of input strings and every confidence in [0,1], every
numeric field of the report returned by `calculatePronunciationScore` —
score, fluency, toneAccuracy, similarity, confidence — lies in [0,100]. -/
theorem C1_output_fields_bounded (o u : String) (c : ℚ) (hc0 : 0 ≤ c) (hc1 : c ≤ 1) :
    (0 ≤ (calculatePronunciationScore o u c).score ∧
      (calculatePronunciationScore o u c).score ≤ 100) ∧
    (0 ≤ (calculatePronunciationScore o u c).fluency ∧
      (calculatePronunciationScore o u c).fluency ≤ 100) ∧
    (0 ≤ (calculatePronunciationScore o u c).toneAccuracy ∧
      (calculatePronunciationScore o u c).toneAccuracy ≤ 100) ∧
    (0 ≤ (calculatePronunciationScore o u c).similarity ∧
      (calculatePronunciationScore o u c).similarity ≤ 100) ∧
    (0 ≤ (calculatePronunciationScore o u c).confidence ∧
      (calculatePronunciationScore o u c).confidence ≤ 100) := by
  obtain ⟨hs0, hs1⟩ := simQ_mem o u
  obtain ⟨ht0, ht1⟩ := toneQ_mem o u c
  simp only [calculatePronunciationScore_eq]
  refine ⟨clamp_mem _, fluencyZ_mem o u c hc0 hc1, ⟨?_, ?_⟩, ⟨?_, ?_⟩, ⟨?_, ?_⟩⟩
  · exact le_jsRound (by push_cast; linarith)
  · exact jsRound_le (by push_cast; linarith)
  · exact le_jsRound (by push_cast; linarith)
  · exact jsRound_le (by push_cast; linarith)
  · exact le_jsRound (by push_cast; linarith)
  · exact jsRound_le (by push_cast; linarith)

/-- C1 witness: the bounds instantiated at a concrete input. -/
theorem C1_witness :
    0 ≤ (calculatePronunciationScore "你好" "个" 1).score ∧
    (calculatePronunciationScore "你好" "个" 1).score ≤ 100 :=
  (C1_output_fields_bounded "你好" "个" 1 zero_le_one (le_refl 1)).1

/-- C2 counterexample: at input confidence 2 (outside [0,1]) the returned
confidence field is 200, so it is not clamped to [0,100] as the claim
states for every numeric output field. -/
theorem C2_counterexample :
    ¬ ((calculatePronunciationScore "" "" 2).confidence ≤ 100) := by
  have h : (calculatePronunciationScore "" "" 2).confidence = 200 := by
    with_unfolding_all rfl
  omega

/-- C2 (amended): the scorer does not clamp the input confidence — the
returned confidence field is exactly `round(confidence * 100)` — and for
arbitrary finite confidence only score, toneAccuracy and similarity are
guaranteed in [0,100], while fluency is only capped above at 100. -/
theorem C2_amended_output_clamping (o u : String) (c : ℚ) :
    (0 ≤ (calculatePronunciationScore o u c).score ∧
      (calculatePronunciationScore o u c).score ≤ 100) ∧
    (0 ≤ (calculatePronunciationScore o u c).toneAccuracy ∧
      (calculatePronunciationScore o u c).toneAccuracy ≤ 100) ∧
    (0 ≤ (calculatePronunciationScore o u c).similarity ∧
      (calculatePronunciationScore o u c).similarity ≤ 100) ∧
    (calculatePronunciationScore o u c).fluency ≤ 100 ∧
    (calculatePronunciationScore o u c).confidence = jsRound (c * 100) := by
  obtain ⟨hs0, hs1⟩ := simQ_mem o u
  obtain ⟨ht0, ht1⟩ := toneQ_mem o u c
  simp only [calculatePronunciationScore_eq]
  refine ⟨clamp_mem _, ⟨?_, ?_⟩, ⟨?_, ?_⟩, min_le_left _ _, by trivial⟩
  · exact le_jsRound (by push_cast; linarith)
  · exact jsRound_le (by push_cast; linarith)
  · exact le_jsRound (by push_cast; linarith)
  · exact jsRound_le (by push_cast; linarith)

/-- C3: scoring any string against itself with confidence 1 yields
similarity 100, a score in the Excellent band, accuracy "Excellent" and the
top encouragement tier. -/
theorem C3_identical_strings (s : String) :
    (calculatePronunciationScore s s 1).similarity = 100 ∧
    90 ≤ (calculatePronunciationScore s s 1).score ∧
    (calculatePronunciationScore s s 1).accuracy = "Excellent" ∧
    (calculatePronunciationScore s s 1).encouragement.title = "好犀利！(太棒了)" := by
  have hsim := simQ_self s
  have ht : toneQ s s 1 = 100 := by rw [toneQ, hsim]; norm_num
  have hs : scoreZ s s 1 = 100 := by rw [scoreZ, hsim, ht]; norm_num [jsRound]
  simp only [calculatePronunciationScore_eq]
  refine ⟨?_, ?_, ?_, ?_⟩
  · rw [hsim]; norm_num [jsRound]
  · rw [hs]; norm_num
  · rw [hs]; norm_num
  · rw [hs]; norm_num

/-- C4: the concrete scenario "我想食饭" vs "我想食面" at confidence 0.9:
similarity 75, confidence 90, toneAccuracy 77, score 79, accuracy "Good",
and the encouragement band for scores in [70,80). -/
theorem C4_one_char_differs :
    (calculatePronunciationScore "我想食饭" "我想食面" (9/10)).similarity = 75 ∧
    (calculatePronunciationScore "我想食饭" "我想食面" (9/10)).confidence = 90 ∧
    (calculatePronunciationScore "我想食饭" "我想食面" (9/10)).toneAccuracy = 77 ∧
    (calculatePronunciationScore "我想食饭" "我想食面" (9/10)).score = 79 ∧
    (calculatePronunciationScore "我想食饭" "我想食面" (9/10)).accuracy = "Good" ∧
    (calculatePronunciationScore "我想食饭" "我想食面" (9/10)).encouragement.title =
      "过得去！(还可以)" ∧
    (calculatePronunciationScore "我想食饭" "我想食面" (9/10)).encouragement.message =
      "有些地方需要练习，加油！" := by
  refine ⟨?_, ?_, ?_, ?_, ?_, ?_, ?_⟩ <;> with_unfolding_all rfl

/-- C5: the concrete scenario "你好" vs the empty transcript at confidence
0.5: similarity 0, confidence 50, toneAccuracy floored at 60, score 22,
accuracy "Poor", bottom encouragement tier. -/
theorem C5_empty_user_text :
    (calculatePronunciationScore "你好" "" (1/2)).similarity = 0 ∧
    (calculatePronunciationScore "你好" "" (1/2)).confidence = 50 ∧
    (calculatePronunciationScore "你好" "" (1/2)).toneAccuracy = 60 ∧
    (calculatePronunciationScore "你好" "" (1/2)).score = 22 ∧
    (calculatePronunciationScore "你好" "" (1/2)).accuracy = "Poor" ∧
    (calculatePronunciationScore "你好" "" (1/2)).encouragement.title =
      "重新嚟过！(再试试)" := by
  refine ⟨?_, ?_, ?_, ?_, ?_, ?_⟩ <;> with_unfolding_all rfl

/-- C6: when both inputs normalize to the empty string the scorer is still
well defined: the distance is 0, `maxLen` falls back to 1, and the returned
similarity is 100. -/
theorem C6_both_normalize_empty (a b : String) (c : ℚ)
    (ha : normalize a = "") (hb : normalize b = "") :
    lev (normalize a).data (normalize b).data = 0 ∧
    jsOrOne (max (normalize a).length (normalize b).length) = 1 ∧
    (calculatePronunciationScore a b c).similarity = 100 := by
  have hsim := simQ_empty a b ha hb
  refine ⟨?_, ?_, ?_⟩
  · rw [ha, hb]; exact lev_self _
  · rw [ha, hb]; rfl
  · simp only [calculatePronunciationScore_eq]
    rw [hsim]
    norm_num [jsRound]

/-- C6 witness: the degenerate case of two empty inputs at confidence 1. -/
theorem C6_witness :
    normalize "" = "" ∧ (calculatePronunciationScore "" "" 1).similarity = 100 :=
  ⟨rfl, (C6_both_normalize_empty "" "" 1 rfl rfl).2.2⟩

/-- C7: the text normalizer used by the scorer is idempotent. -/
theorem C7_normalize_idempotent (s : String) :
    normalize (normalize s) = normalize s := by
  show (⟨((normalize s).data.map jsToLower).filter isKept⟩ : String) = normalize s
  rw [filter_map_fix _ (mem_normalize_isKept s)]

/-- C8: every character of the normalizer output is a lowercase Latin
letter, a digit, or a CJK ideograph in U+4E00–U+9FA5; other characters are
removed rather than replaced (the output is a sublist of the lowercased
input, so survivors become adjacent); and the empty input yields the empty
output. -/
theorem C8_normalize_output_charset (s : String) :
    (∀ c ∈ (normalize s).data,
      (0x61 ≤ c.toNat ∧ c.toNat ≤ 0x7a) ∨
      (0x30 ≤ c.toNat ∧ c.toNat ≤ 0x39) ∨
      (0x4e00 ≤ c.toNat ∧ c.toNat ≤ 0x9fa5)) ∧
    List.Sublist (normalize s).data (s.data.map jsToLower) ∧
    normalize "" = "" := by
  refine ⟨?_, ?_, rfl⟩
  · intro c hc
    have h := mem_normalize_isKept s c hc
    simp only [isKept, Bool.or_eq_true, Bool.and_eq_true, decide_eq_true_eq] at h
    tauto
  · rw [normalize_data]
    exact List.filter_sublist _

/-- C9: the Levenshtein edit-distance primitive satisfies the triangle
inequality. -/
theorem C9_triangle_inequality (a b c : String) :
    lev a.data c.data ≤ lev a.data b.data + lev b.data c.data :=
  lev_triangle a.data b.data c.data

/-- C10: because toneAccuracy is floored at 60 and carries weight 0.15, for
confidence in [0,1] the returned score is at least 9 (hence never 0) and
the returned toneAccuracy is at least 60. -/
theorem C10_score_floor (o u : String) (c : ℚ) (hc0 : 0 ≤ c) (hc1 : c ≤ 1) :
    9 ≤ (calculatePronunciationScore o u c).score ∧
    (calculatePronunciationScore o u c).score ≠ 0 ∧
    60 ≤ (calculatePronunciationScore o u c).toneAccuracy := by
  obtain ⟨h9, h100⟩ := scoreZ_mem o u c hc0 hc1
  obtain ⟨ht60, _⟩ := toneQ_mem o u c
  simp only [calculatePronunciationScore_eq]
  refine ⟨by omega, by omega, ?_⟩
  exact le_jsRound (by push_cast; linarith)

/-- C10 witness: instantiated at fully mismatched texts with confidence 0,
the worst case, where the floor is attained. -/
theorem C10_witness : 9 ≤ (calculatePronunciationScore "a" "b" 0).score :=
  (C10_score_floor "a" "b" 0 (le_refl 0) zero_le_one).1

end LearnCantonese

